import Mathlib

/-!
Verification of the ELL model-graph transformation engine and the
fully-connected layer kernel.

The repository headers declare the `ModelTransformer`, `TransformContext`
and `PortOutputsMap` interfaces; the implementation files of those classes
are not part of the source excerpt, so the corresponding definitions below
are modelled from the specification text, as indicated in each doc comment.
The fully-connected layer code is embedded directly from its source file.
-/

/-- An action to perform on a node during transformation, from the
`NodeAction` enum in the header. -/
inductive NodeAction where
  | abstain
  | refine
  | compile
  deriving DecidableEq, Repr

/-- A reference to one output port of a node: the id of the node owning the
output, and the index of the port among the outputs of that node. -/
structure PortRef where
  node : Nat
  port : Nat
  deriving DecidableEq, Repr

/-- A node of a model graph: an identity, the list of output-port references
its input ports are bound to, the number of its own output ports, and its
compilability self-report. -/
structure Node where
  id : Nat
  inputs : List PortRef
  numOutputs : Nat
  compilable : Bool
  deriving DecidableEq, Repr

/-- A model: an owning sequence of nodes, intended to be in topological
order. -/
structure Model where
  nodes : List Node
  deriving DecidableEq, Repr

/-- Modelled from the spec: a `TransformContext` holds an ordered list of
override decision functions and an optional external compiler, represented
by its `CanCompile` capability query (the `MapCompiler` class is not in the
source excerpt). -/
structure TransformContext where
  nodeActionFunctions : List (Node → NodeAction)
  compiler : Option (Node → Bool)

/-- Modelled from the spec: `TransformContext::IsNodeCompilable` : a node is
compilable when it self-reports compilable and, if an external compiler is
attached, that compiler `CanCompile` query accepts it (the implementation
file is not in the source excerpt). -/
def TransformContext.IsNodeCompilable (ctx : TransformContext) (n : Node) : Bool :=
  n.compilable && (match ctx.compiler with
                   | none => true
                   | some canCompile => canCompile n)

/-- Modelled from the spec: `TransformContext::GetNodeAction` evaluates each
registered override function in registration order, keeping the last answer
other than `abstain`; if every function abstains (or none are registered),
the default is `compile` for a compilable node and `refine` otherwise (the
implementation file is not in the source excerpt; the header doc comment
states the same behaviour). -/
def TransformContext.GetNodeAction (ctx : TransformContext) (n : Node) : NodeAction :=
  let overridden := ctx.nodeActionFunctions.foldl
    (fun acc f => if f n = NodeAction.abstain then acc else f n)
    NodeAction.abstain
  if overridden ≠ NodeAction.abstain then overridden
  else if ctx.IsNodeCompilable n then NodeAction.compile else NodeAction.refine

/-- The last non-abstain element of a list of answers, written directly from
the specification sentence: the result of the last function that returns
something other than abstain. -/
def lastNonAbstain (answers : List NodeAction) : Option NodeAction :=
  answers.reverse.find? (fun a => a ≠ NodeAction.abstain)

/-- Error categories surfaced by the transformation engine. -/
inductive TransformError where
  | invariantViolation
  | notFound
  deriving DecidableEq, Repr

/-- A `PortOutputsMap` is a table from old output-port identities to new
output-port identities; represented as an association list in insertion
order. -/
abbrev PortOutputsMap : Type := List (PortRef × PortRef)

/-- Lookup of the entry for a port, first match wins. -/
def lookupMap (m : PortOutputsMap) (p : PortRef) : Option PortRef :=
  (m.find? (fun e => e.1 = p)).map (fun e => e.2)

/-- Modelled from the spec: `PortOutputsMap::MapNodeOutput` registers that
`oldPort` corresponds to `newPort`; mapping an already-mapped port to a
different port is an invariant violation and fails loudly (the
implementation file is not in the source excerpt). -/
def MapNodeOutput (m : PortOutputsMap) (oldPort newPort : PortRef) :
    Except TransformError PortOutputsMap :=
  match lookupMap m oldPort with
  | some existing =>
      if existing = newPort then Except.ok m
      else Except.error TransformError.invariantViolation
  | none => Except.ok (m ++ [(oldPort, newPort)])

/-- Modelled from the spec: `PortOutputsMap::GetCorrespondingPort` returns
the mapped port, failing with a not-found error when the port was never
mapped (the implementation file is not in the source excerpt). -/
def GetCorrespondingPort (m : PortOutputsMap) (p : PortRef) :
    Except TransformError PortRef :=
  match lookupMap m p with
  | some q => Except.ok q
  | none => Except.error TransformError.notFound

/-- Modelled from the spec: `PortOutputsMap::ConcatenateMaps` resolves every
value of the first map through the second map, leaving values untouched by
the second map unchanged (the implementation file is not in the source
excerpt). -/
def ConcatenateMaps (first second : PortOutputsMap) : PortOutputsMap :=
  first.map (fun e => (e.1, (lookupMap second e.2).getD e.2))

/-- True when some node of the list declares the referenced output port: its
id matches the reference and the port index is below its number of
outputs. -/
def portDeclared (ns : List Node) (r : PortRef) : Bool :=
  ns.any (fun n => n.id = r.node && r.port < n.numOutputs)

/-- Well-formedness of a node sequence relative to a list of already seen
nodes: each id is fresh and every input refers to an output port declared by
an earlier node, so the sequence is a valid topological order. -/
def nodesWf (seen : List Node) : List Node → Bool
  | [] => true
  | n :: rest =>
      (!(seen.any (fun m => m.id = n.id))) &&
      n.inputs.all (fun r => portDeclared seen r) &&
      nodesWf (seen ++ [n]) rest

/-- Well-formedness of a model: its node sequence is a valid topological
order with distinct ids. -/
def Model.wf (m : Model) : Bool := nodesWf [] m.nodes

/-- The node ids of a list are pairwise distinct. -/
def idsNodup (ns : List Node) : Prop := List.Nodup (ns.map Node.id)

/-- Modelled from the spec: the backward-reachable node closure from a set
of output-node ids, computed by one scan of the topologically ordered node
list from the last node to the first, adding the input sources of every
needed node. -/
def reachClosure (ns : List Node) (outputIds : List Nat) : List Nat :=
  ns.foldr
    (fun n needed =>
      if n.id ∈ needed then needed ++ n.inputs.map (fun r => r.node) else needed)
    outputIds

/-- The nodes of a model visited by a filtered copy: the subsequence of
nodes whose id lies in the backward-reachable closure of the filter. -/
def visitedNodes (m : Model) (outputIds : List Nat) : List Node :=
  m.nodes.filter (fun n => decide (n.id ∈ reachClosure m.nodes outputIds))

/-- Index of the first node with the given id. -/
def idIndex : List Node → Nat → Option Nat
  | [], _ => none
  | n :: rest, nid => if n.id = nid then some 0 else (idIndex rest nid).map (· + 1)

/-- The canonical renaming of an old port reference induced by a visited
node list: the owning node id becomes the position of that node in the
visit order. -/
def renamePort (visited : List Node) (r : PortRef) : PortRef :=
  match idIndex visited r.node with
  | some i => { node := i, port := r.port }
  | none => r

/-- The map entries registered when a node with `numOutputs` output ports is
copied: one entry per output port, from the old node id to the new one. -/
def portEntries (oldId newId : Nat) : Nat → PortOutputsMap
  | 0 => []
  | k + 1 => portEntries oldId newId k ++ [({ node := oldId, port := k }, { node := newId, port := k })]

/-- The full map accumulated by copying a visited node list, the first new
node receiving id `base`. -/
def mapEntriesFrom (base : Nat) : List Node → PortOutputsMap
  | [] => []
  | n :: rest => portEntries n.id base n.numOutputs ++ mapEntriesFrom (base + 1) rest

/-- The node list produced by copying the given node list: position becomes
the new id and every input is renamed through the canonical renaming of the
full visited list. -/
def renamedNodesFrom (visited : List Node) (base : Nat) : List Node → List Node
  | [] => []
  | n :: rest =>
      { id := base, inputs := n.inputs.map (renamePort visited),
        numOutputs := n.numOutputs, compilable := n.compilable } ::
      renamedNodesFrom visited (base + 1) rest

/-- The canonical copy of a visited node list. -/
def renamedNodes (visited : List Node) : List Node :=
  renamedNodesFrom visited 0 visited

/-- Resolution of the input references of a node through the map built so
far; a missing entry is a lookup failure. -/
def resolveInputs (m : PortOutputsMap) : List PortRef → Option (List PortRef)
  | [] => some []
  | r :: rest =>
      match lookupMap m r with
      | none => none
      | some q => (resolveInputs m rest).map (fun qs => q :: qs)

/-- Working state of a copy pass: the active map, the target node list and
the next fresh node id. -/
structure CopyState where
  map : PortOutputsMap
  newNodes : List Node
  nextId : Nat
  deriving Repr

/-- Modelled from the spec: copying one node resolves each of its inputs
through the active map, adds an equivalent node bound to the resolved
inputs to the target model, and registers one map entry per output port. -/
def copyNode (st : CopyState) (n : Node) : Except TransformError CopyState :=
  match resolveInputs st.map n.inputs with
  | none => Except.error TransformError.notFound
  | some newInputs =>
      Except.ok
        { map := st.map ++ portEntries n.id st.nextId n.numOutputs,
          newNodes := st.newNodes ++
            [{ id := st.nextId, inputs := newInputs,
               numOutputs := n.numOutputs, compilable := n.compilable }],
          nextId := st.nextId + 1 }

/-- Copying of a node list in visit order. -/
def copyLoop (st : CopyState) : List Node → Except TransformError CopyState
  | [] => Except.ok st
  | n :: rest =>
      match copyNode st n with
      | Except.error e => Except.error e
      | Except.ok st2 => copyLoop st2 rest

/-- Modelled from the spec: `ModelTransformer::CopyModel` with an output
filter fails with a not-found error when a filter id references a node not
present in the source model; otherwise it resets the working state, computes
the backward-reachable closure of the filter, and copies the closure nodes
in topological order, returning the new model and the populated map (the
implementation file is not in the source excerpt). -/
def CopyModelFiltered (m : Model) (_ctx : TransformContext) (outputIds : List Nat) :
    Except TransformError (Model × PortOutputsMap) :=
  if outputIds.all (fun oid => m.nodes.any (fun n => n.id = oid)) then
    match copyLoop { map := [], newNodes := [], nextId := 0 } (visitedNodes m outputIds) with
    | Except.error e => Except.error e
    | Except.ok st => Except.ok ({ nodes := st.newNodes }, st.map)
  else Except.error TransformError.notFound

/-- Modelled from the spec: `ModelTransformer::CopyModel` without a filter
copies the full node set in topological order (the implementation file is
not in the source excerpt). -/
def CopyModel (m : Model) (_ctx : TransformContext) :
    Except TransformError (Model × PortOutputsMap) :=
  match copyLoop { map := [], newNodes := [], nextId := 0 } m.nodes with
  | Except.error e => Except.error e
  | Except.ok st => Except.ok ({ nodes := st.newNodes }, st.map)

/-- Structural identity of two models: same node count and, position by
position, the same output arity, the same compilability report and the same
connectivity once the inputs of each side are renamed through the canonical
positional renaming of that side. -/
def structurallyIdentical (m1 m2 : Model) : Prop :=
  m1.nodes.length = m2.nodes.length ∧
  ∀ i (h1 : i < m1.nodes.length) (h2 : i < m2.nodes.length),
    (m1.nodes.get ⟨i, h1⟩).numOutputs = (m2.nodes.get ⟨i, h2⟩).numOutputs ∧
    (m1.nodes.get ⟨i, h1⟩).compilable = (m2.nodes.get ⟨i, h2⟩).compilable ∧
    (m1.nodes.get ⟨i, h1⟩).inputs.map (renamePort m1.nodes) =
      (m2.nodes.get ⟨i, h2⟩).inputs.map (renamePort m2.nodes)

/-- Modelled from the spec: the treatment of one node during a refinement
iteration. The action decided by the context selects a straight copy
(`compile` or `abstain`) or the refine operation of the node; a refine
operation that does nothing counts as zero refinements. The per-node refine
operation is the polymorphic `Refine` capability of the node variants, kept
abstract as a function from a node to its optional replacement subgraph. -/
def refineNode (ctx : TransformContext) (refineOp : Node → Option (List Node))
    (n : Node) : List Node × Nat :=
  match ctx.GetNodeAction n with
  | NodeAction.refine =>
      match refineOp n with
      | some replacement => (replacement, 1)
      | none => ([n], 0)
  | _ => ([n], 0)

/-- Modelled from the spec: one refinement iteration visits every node in
order, copying or refining it, and reports the number of refinements
performed. -/
def refinePass (ctx : TransformContext) (refineOp : Node → Option (List Node))
    (m : Model) : Model × Nat :=
  let result := m.nodes.foldl
    (fun acc n =>
      let r := refineNode ctx refineOp n
      (acc.1 ++ r.1, acc.2 + r.2))
    ([], 0)
  ({ nodes := result.1 }, result.2)

/-- Modelled from the spec: the fixpoint loop of `RefineModel` runs
iterations until one performs zero refinements or the iteration budget is
exhausted, whichever comes first (the implementation file is not in the
source excerpt). -/
def refineLoop (ctx : TransformContext) (refineOp : Node → Option (List Node)) :
    Nat → Model → Model
  | 0, m => m
  | Nat.succ k, m =>
      let r := refinePass ctx refineOp m
      if r.2 = 0 then r.1 else refineLoop ctx refineOp k r.1

/-- The number of iterations the fixpoint loop performs within a given
budget. -/
def refineIterationCount (ctx : TransformContext) (refineOp : Node → Option (List Node)) :
    Nat → Model → Nat
  | 0, _ => 0
  | Nat.succ k, m =>
      let r := refinePass ctx refineOp m
      if r.2 = 0 then 1 else 1 + refineIterationCount ctx refineOp k r.1

/-- The plain iterate of the refinement pass, with no early stop. -/
def passIterate (ctx : TransformContext) (refineOp : Node → Option (List Node)) :
    Nat → Model → Model
  | 0, m => m
  | Nat.succ k, m => passIterate ctx refineOp k (refinePass ctx refineOp m).1

/-- Modelled from the spec: `ModelTransformer::RefineModel` performs the
fixpoint refinement loop with a default iteration budget of ten (the
implementation file is not in the source excerpt). -/
def RefineModel (m : Model) (ctx : TransformContext)
    (refineOp : Node → Option (List Node)) (maxIterations : Nat := 10) : Model :=
  refineLoop ctx refineOp maxIterations m

/-- A three-dimensional tensor shape: rows, columns and channels. -/
structure Shape where
  rows : Nat
  cols : Nat
  channels : Nat
  deriving DecidableEq, Repr

/-- The number of elements of a shape. -/
def Shape.size (s : Shape) : Nat := s.rows * s.cols * s.channels

/-- The running value of `columnIndex` in the reshape loops of
`FullyConnectedLayer::Compute` when position `(i, j, k)` is visited: the
row-major flattening index in row, column, channel order. -/
def rowMajorIndex (s : Shape) (i j k : Nat) : Nat :=
  (i * s.cols + j) * s.channels + k

/-- A matrix over exact rationals, held as its list of rows. The element
type of the layer is embedded as the rationals, treating the arithmetic of
the source exactly. -/
structure MatrixQ where
  rows : List (List ℚ)
  deriving DecidableEq, Repr

/-- The number of rows of a matrix, `NumRows` in the source. -/
def MatrixQ.numRows (w : MatrixQ) : Nat := w.rows.length

/-- The error codes of `utilities::InputException` used by the layer. -/
inductive InputExceptionErrors where
  | invalidArgument
  deriving DecidableEq, Repr

/-- The exceptions thrown by the embedded layer code. -/
inductive ELLException where
  | inputException (err : InputExceptionErrors)
  deriving DecidableEq, Repr

/-- Modelled from the spec: the layer parameters of the `Layer` base class
are represented by the input tensor shape and the shape of the output
region minus padding; `GetOutputMinusPadding` and the `Layer` base class are
not in the source excerpt, so the output-minus-padding region is carried
directly as its shape, with `Size` the element count of that shape. -/
structure LayerParameters where
  inputShape : Shape
  outputMinusPaddingShape : Shape
  deriving DecidableEq, Repr

/-- The state of a fully connected layer: its parameters, the stored weight
matrix, the two scratch vectors, and the contents of the input tensor and
of the output region, indexed by row, column and channel. -/
structure FullyConnectedLayer where
  layerParameters : LayerParameters
  weights : MatrixQ
  shapedInput : List ℚ
  outputVector : List ℚ
  inputTensor : Nat → Nat → Nat → ℚ
  outputTensor : Nat → Nat → Nat → ℚ

/-- The matrix constructor of `FullyConnectedLayer`, from the source: the
supplied weights are stored, the scratch vectors are sized from the input
and from the output minus padding, and an `InputException` with code
`invalidArgument` is thrown when the number of weight rows differs from the
size of the output minus padding. -/
def FullyConnectedLayer.ofWeightsMatrix (layerParameters : LayerParameters)
    (inputTensor outputTensor : Nat → Nat → Nat → ℚ) (weights : MatrixQ) :
    Except ELLException FullyConnectedLayer :=
  if weights.numRows ≠ layerParameters.outputMinusPaddingShape.size then
    Except.error (ELLException.inputException InputExceptionErrors.invalidArgument)
  else
    Except.ok
      { layerParameters := layerParameters,
        weights := weights,
        shapedInput := List.replicate layerParameters.inputShape.size 0,
        outputVector := List.replicate layerParameters.outputMinusPaddingShape.size 0,
        inputTensor := inputTensor,
        outputTensor := outputTensor }

/-- The dot product of two lists. -/
def dotQ (xs ys : List ℚ) : ℚ := ((xs.zip ys).map (fun p => p.1 * p.2)).sum

/-- Modelled from the spec: `math::MultiplyScaleAddUpdate s M x b y` of the
math library (not in the source excerpt) updates `y` to `s * M * x + b * y`,
the standard general matrix-vector product its name and call site
document. -/
def MultiplyScaleAddUpdate (s : ℚ) (w : MatrixQ) (x : List ℚ) (b : ℚ)
    (y : List ℚ) : List ℚ :=
  (List.range w.numRows).map
    (fun r => s * dotQ (w.rows.getD r []) x + b * y.getD r 0)

/-- The flattening of the input tensor performed by the first loop nest of
`Compute`: rows outermost, then columns, then channels. -/
def flattenTensor (s : Shape) (t : Nat → Nat → Nat → ℚ) : List ℚ :=
  (List.range s.rows).flatMap (fun i =>
    (List.range s.cols).flatMap (fun j =>
      (List.range s.channels).map (fun k => t i j k)))

/-- `FullyConnectedLayer::Compute`, from the source: the input tensor is
reshaped into a vector in row, column, channel order, the weight matrix is
applied by `MultiplyScaleAddUpdate` with scale one and bias zero, and the
result is written back into the output region in the same order; positions
outside the output region are untouched. -/
def FullyConnectedLayer.Compute (layer : FullyConnectedLayer) : FullyConnectedLayer :=
  let shaped := flattenTensor layer.layerParameters.inputShape layer.inputTensor
  let y := MultiplyScaleAddUpdate 1 layer.weights shaped 0 layer.outputVector
  let outShape := layer.layerParameters.outputMinusPaddingShape
  { layer with
    shapedInput := shaped,
    outputVector := y,
    outputTensor := fun i j k =>
      if i < outShape.rows ∧ j < outShape.cols ∧ k < outShape.channels then
        y.getD (rowMajorIndex outShape i j k) 0
      else layer.outputTensor i j k }

/-- One entry of the mathematical matrix-vector product: row `r` of the
matrix against the vector, both given as functions, summed over the first
`n` columns. -/
def matVecEntry (w : Nat → Nat → ℚ) (x : Nat → ℚ) (n r : Nat) : ℚ :=
  ∑ c ∈ Finset.range n, w r c * x c

/-- A concrete two-node chain used as a test input: a source node with one
output and a sink node with two outputs reading the source output. -/
def chainModel : Model :=
  { nodes := [{ id := 5, inputs := [], numOutputs := 1, compilable := true },
              { id := 7, inputs := [{ node := 5, port := 0 }], numOutputs := 2,
                compilable := false }] }

/-- A concrete one-by-one-by-two layer used as a test input. -/
def testLayer : FullyConnectedLayer :=
  { layerParameters := { inputShape := { rows := 1, cols := 1, channels := 2 },
                         outputMinusPaddingShape := { rows := 1, cols := 1, channels := 2 } },
    weights := { rows := [[1, 2], [3, 4]] },
    shapedInput := [0, 0],
    outputVector := [0, 0],
    inputTensor := fun _ _ k => if k = 0 then 5 else 7,
    outputTensor := fun _ _ _ => 0 }

/-! ## Theorems -/

theorem lastNonAbstain_cons (a : NodeAction) (l : List NodeAction) :
    lastNonAbstain (a :: l) =
      match lastNonAbstain l with
      | some v => some v
      | none => if a = NodeAction.abstain then none else some a := by
  cases hfind : lastNonAbstain l with
  | some v =>
    unfold lastNonAbstain at hfind ⊢
    rw [List.reverse_cons, List.find?_append, hfind]
    rfl
  | none =>
    unfold lastNonAbstain at hfind ⊢
    rw [List.reverse_cons, List.find?_append, hfind]
    by_cases ha : a = NodeAction.abstain <;> simp [ha, List.find?]

theorem foldl_override (funcs : List (Node → NodeAction)) (n : Node) (acc : NodeAction) :
    funcs.foldl (fun acc f => if f n = NodeAction.abstain then acc else f n) acc =
      (lastNonAbstain (funcs.map (fun f => f n))).getD acc := by
  induction funcs generalizing acc with
  | nil => simp [lastNonAbstain]
  | cons f rest ih =>
    rw [List.map_cons, lastNonAbstain_cons, List.foldl_cons, ih]
    cases hfind : lastNonAbstain (rest.map (fun f => f n)) with
    | some v => rfl
    | none => by_cases hf : f n = NodeAction.abstain <;> simp [hf]

/-- C1: for every node and every TransformContext, `GetNodeAction` evaluates
the registered override functions in registration order and returns the last
non-abstain answer; if every override abstains (or none are registered), it
returns refine when the node self-reports non-compilable, and for a
self-reported-compilable node it returns compile when no external compiler
is attached and otherwise returns compile exactly when the compiler
`CanCompile` query accepts the node, refine otherwise. -/
theorem getNodeAction_last_override_wins (ctx : TransformContext) (n : Node) :
    ctx.GetNodeAction n =
      match lastNonAbstain (ctx.nodeActionFunctions.map (fun f => f n)) with
      | some a => a
      | none =>
          if n.compilable then
            match ctx.compiler with
            | none => NodeAction.compile
            | some canCompile =>
                if canCompile n then NodeAction.compile else NodeAction.refine
          else NodeAction.refine := by
  unfold TransformContext.GetNodeAction
  rw [foldl_override]
  cases hfind : lastNonAbstain (ctx.nodeActionFunctions.map (fun f => f n)) with
  | some v =>
    have hv : v ≠ NodeAction.abstain := by
      have := List.find?_some (by simpa [lastNonAbstain] using hfind)
      simpa using this
    simp [Option.getD, hv]
  | none =>
    simp only [Option.getD]
    unfold TransformContext.IsNodeCompilable
    cases hc : ctx.compiler with
    | none => by_cases hn : n.compilable <;> simp [hn]
    | some canCompile =>
      by_cases hn : n.compilable <;> by_cases hcc : canCompile n = true <;>
        simp [hn, hcc]

theorem lookupMap_append (m1 m2 : PortOutputsMap) (p : PortRef) :
    lookupMap (m1 ++ m2) p = (lookupMap m1 p).or (lookupMap m2 p) := by
  unfold lookupMap
  rw [List.find?_append]
  cases m1.find? (fun e => decide (e.1 = p)) <;> simp

theorem lookupMap_concat (first second : PortOutputsMap) (k : PortRef) :
    lookupMap (ConcatenateMaps first second) k =
      (lookupMap first k).map (fun v => (lookupMap second v).getD v) := by
  induction first with
  | nil => rfl
  | cons e rest ih =>
    by_cases he : e.1 = k
    · simp [ConcatenateMaps, lookupMap, List.find?_cons, he]
    · simpa [ConcatenateMaps, lookupMap, List.find?_cons, he] using ih

/-- C6: `ConcatenateMaps(first, second)` returns a map whose key set equals
that of `first`; for every entry `(k, v)` of `first` the result maps `k` to
`second[v]` when `v` is a key of `second` and to `v` unchanged otherwise. -/
theorem concatenateMaps_keys_and_values (first second : PortOutputsMap) :
    (ConcatenateMaps first second).map Prod.fst = first.map Prod.fst ∧
    ∀ k v, lookupMap first k = some v →
      ((∀ w, lookupMap second v = some w →
          lookupMap (ConcatenateMaps first second) k = some w) ∧
       (lookupMap second v = none →
          lookupMap (ConcatenateMaps first second) k = some v)) := by
  constructor
  · unfold ConcatenateMaps
    rw [List.map_map]
    rfl
  · intro k v hv
    constructor
    · intro w hw
      rw [lookupMap_concat, hv]
      simp [hw]
    · intro hw
      rw [lookupMap_concat, hv]
      simp [hw]

/-- Witness for C6: a concrete chained resolution and a concrete
pass-through. -/
theorem concatenateMaps_keys_and_values_witness :
    lookupMap (ConcatenateMaps [(⟨0, 0⟩, ⟨1, 0⟩), (⟨0, 1⟩, ⟨9, 9⟩)]
        [(⟨1, 0⟩, ⟨2, 0⟩)]) ⟨0, 0⟩ = some ⟨2, 0⟩ ∧
    lookupMap (ConcatenateMaps [(⟨0, 0⟩, ⟨1, 0⟩), (⟨0, 1⟩, ⟨9, 9⟩)]
        [(⟨1, 0⟩, ⟨2, 0⟩)]) ⟨0, 1⟩ = some ⟨9, 9⟩ := by
  have h := concatenateMaps_keys_and_values
    [(⟨0, 0⟩, ⟨1, 0⟩), (⟨0, 1⟩, ⟨9, 9⟩)] [(⟨1, 0⟩, ⟨2, 0⟩)]
  exact ⟨(h.2 ⟨0, 0⟩ ⟨1, 0⟩ (by decide)).1 ⟨2, 0⟩ (by decide),
         (h.2 ⟨0, 1⟩ ⟨9, 9⟩ (by decide)).2 (by decide)⟩

/-- C7: map concatenation is associative for the per-pass maps of compatible
chained passes, where every value produced by the first pass is a key of the
map of the second pass. -/
theorem concatenateMaps_assoc (A B C : PortOutputsMap)
    (hAB : ∀ e ∈ A, (lookupMap B e.2).isSome = true) :
    ConcatenateMaps (ConcatenateMaps A B) C =
      ConcatenateMaps A (ConcatenateMaps B C) := by
  induction A with
  | nil => rfl
  | cons e rest ih =>
    obtain ⟨w, hw⟩ := Option.isSome_iff_exists.mp (hAB e (List.mem_cons_self e rest))
    have hrest : ∀ x ∈ rest, (lookupMap B x.2).isSome = true :=
      fun x hx => hAB x (List.mem_cons_of_mem e hx)
    have htail := ih hrest
    have hbc : lookupMap (ConcatenateMaps B C) e.2 =
        some ((lookupMap C w).getD w) := by
      rw [lookupMap_concat, hw]
      rfl
    show (e.1, (lookupMap C ((lookupMap B e.2).getD e.2)).getD
            ((lookupMap B e.2).getD e.2)) ::
          ConcatenateMaps (ConcatenateMaps rest B) C =
        (e.1, (lookupMap (ConcatenateMaps B C) e.2).getD e.2) ::
          ConcatenateMaps rest (ConcatenateMaps B C)
    rw [hw, hbc, htail]
    simp

/-- Witness for C7: concrete compatible chained maps. -/
theorem concatenateMaps_assoc_witness :
    ConcatenateMaps (ConcatenateMaps [(⟨0, 0⟩, ⟨1, 0⟩)] [(⟨1, 0⟩, ⟨2, 0⟩)])
        [(⟨2, 0⟩, ⟨3, 0⟩)] =
      ConcatenateMaps [(⟨0, 0⟩, ⟨1, 0⟩)]
        (ConcatenateMaps [(⟨1, 0⟩, ⟨2, 0⟩)] [(⟨2, 0⟩, ⟨3, 0⟩)]) :=
  concatenateMaps_assoc [(⟨0, 0⟩, ⟨1, 0⟩)] [(⟨1, 0⟩, ⟨2, 0⟩)]
    [(⟨2, 0⟩, ⟨3, 0⟩)] (by decide)

/-- C4: calling `MapNodeOutput` for an already-mapped old port with a
different new port fails loudly with an invariant-violation error instead of
overwriting or ignoring the second mapping. -/
theorem mapNodeOutput_remap_fails (m : PortOutputsMap) (p q q2 : PortRef)
    (hmapped : lookupMap m p = some q) (hne : q2 ≠ q) :
    MapNodeOutput m p q2 = Except.error TransformError.invariantViolation := by
  unfold MapNodeOutput
  rw [hmapped]
  exact if_neg (fun h => hne h.symm)

/-- Witness for C4: one concrete already-mapped port remapped to a different
port. -/
theorem mapNodeOutput_remap_fails_witness :
    lookupMap [((⟨0, 0⟩ : PortRef), (⟨1, 0⟩ : PortRef))] ⟨0, 0⟩ =
      some (⟨1, 0⟩ : PortRef) ∧
    ((⟨2, 0⟩ : PortRef) ≠ (⟨1, 0⟩ : PortRef)) ∧
    MapNodeOutput [((⟨0, 0⟩ : PortRef), (⟨1, 0⟩ : PortRef))] ⟨0, 0⟩ ⟨2, 0⟩ =
      Except.error TransformError.invariantViolation :=
  ⟨by decide, by decide,
   mapNodeOutput_remap_fails [((⟨0, 0⟩ : PortRef), (⟨1, 0⟩ : PortRef))]
     ⟨0, 0⟩ ⟨1, 0⟩ ⟨2, 0⟩ (by decide) (by decide)⟩

theorem passIterate_succ (ctx : TransformContext) (refineOp : Node → Option (List Node))
    (k : Nat) (m : Model) :
    passIterate ctx refineOp (k + 1) m =
      passIterate ctx refineOp k (refinePass ctx refineOp m).1 := rfl

/-- C2: `RefineModel` performs at most `maxIterations` iterations (default
ten); it stops as soon as an iteration performs zero refinements; and
exhausting the budget without reaching the fixpoint is not an error, the
model produced so far being returned. -/
theorem refineModel_iteration_bound (m : Model) (ctx : TransformContext)
    (refineOp : Node → Option (List Node)) (maxIterations : Nat) :
    refineIterationCount ctx refineOp maxIterations m ≤ maxIterations ∧
    (∀ j, j < maxIterations →
      (∀ i, i < j → (refinePass ctx refineOp (passIterate ctx refineOp i m)).2 ≠ 0) →
      (refinePass ctx refineOp (passIterate ctx refineOp j m)).2 = 0 →
      RefineModel m ctx refineOp maxIterations =
        (refinePass ctx refineOp (passIterate ctx refineOp j m)).1 ∧
      refineIterationCount ctx refineOp maxIterations m = j + 1) ∧
    ((∀ j, j < maxIterations →
        (refinePass ctx refineOp (passIterate ctx refineOp j m)).2 ≠ 0) →
      RefineModel m ctx refineOp maxIterations =
        passIterate ctx refineOp maxIterations m) ∧
    RefineModel m ctx refineOp = refineLoop ctx refineOp 10 m := by
  refine ⟨?_, ?_, ?_, rfl⟩
  · induction maxIterations generalizing m with
    | zero => exact Nat.le_refl 0
    | succ k ih =>
      unfold refineIterationCount
      by_cases h : (refinePass ctx refineOp m).2 = 0
      · simp only [h, if_pos rfl]
        exact Nat.succ_le_succ (Nat.zero_le k)
      · simp only [if_neg h]
        have := ih (refinePass ctx refineOp m).1
        omega
  · intro j
    induction j generalizing m maxIterations with
    | zero =>
      intro hj _ hzero
      cases maxIterations with
      | zero => exact absurd hj (Nat.lt_irrefl 0)
      | succ k =>
        unfold RefineModel refineLoop refineIterationCount
        simp only [passIterate] at hzero
        simp only [hzero, if_pos rfl]
        exact ⟨rfl, rfl⟩
    | succ j ihj =>
      intro hj hpre hzero
      cases maxIterations with
      | zero => exact absurd hj (Nat.not_lt_zero _)
      | succ k =>
        have h0 : (refinePass ctx refineOp (passIterate ctx refineOp 0 m)).2 ≠ 0 :=
          hpre 0 (Nat.succ_pos j)
        simp only [passIterate] at h0
        have hrec := ihj (refinePass ctx refineOp m).1 k
          (Nat.lt_of_succ_lt_succ hj)
          (fun i hi => hpre (i + 1) (Nat.succ_lt_succ hi))
          hzero
        unfold RefineModel at hrec ⊢
        unfold refineLoop refineIterationCount
        simp only [if_neg h0]
        exact ⟨hrec.1, by rw [hrec.2, Nat.add_comm]⟩
  · induction maxIterations generalizing m with
    | zero => intro _; rfl
    | succ k ih =>
      intro hall
      have h0 : (refinePass ctx refineOp (passIterate ctx refineOp 0 m)).2 ≠ 0 :=
        hall 0 (Nat.succ_pos k)
      simp only [passIterate] at h0
      unfold RefineModel refineLoop
      simp only [if_neg h0]
      have := ih (refinePass ctx refineOp m).1
        (fun j hj => hall (j + 1) (Nat.succ_lt_succ hj))
      unfold RefineModel at this
      exact this

/-- Witness for C2: a one-node compilable model reaches the fixpoint on the
first of three allowed iterations. -/
theorem refineModel_iteration_bound_witness :
    (0 : Nat) < 3 ∧
    (refinePass ⟨[], none⟩ (fun _ => none)
      (passIterate ⟨[], none⟩ (fun _ => none) 0 ⟨[⟨0, [], 1, true⟩]⟩)).2 = 0 ∧
    refineIterationCount ⟨[], none⟩ (fun _ => none) 3 ⟨[⟨0, [], 1, true⟩]⟩ ≤ 3 ∧
    RefineModel ⟨[⟨0, [], 1, true⟩]⟩ ⟨[], none⟩ (fun _ => none) 3 =
      (refinePass ⟨[], none⟩ (fun _ => none)
        (passIterate ⟨[], none⟩ (fun _ => none) 0 ⟨[⟨0, [], 1, true⟩]⟩)).1 ∧
    refineIterationCount ⟨[], none⟩ (fun _ => none) 3 ⟨[⟨0, [], 1, true⟩]⟩ = 0 + 1 := by
  have h := refineModel_iteration_bound ⟨[⟨0, [], 1, true⟩]⟩ ⟨[], none⟩ (fun _ => none) 3
  have hz : (refinePass ⟨[], none⟩ (fun _ => none)
      (passIterate ⟨[], none⟩ (fun _ => none) 0 ⟨[⟨0, [], 1, true⟩]⟩)).2 = 0 := by decide
  have hstop := h.2.1 0 (by decide) (fun i hi => absurd hi (Nat.not_lt_zero i)) hz
  exact ⟨by decide, hz, h.1, hstop.1, hstop.2⟩

/-- C9: the weights-matrix constructor of `FullyConnectedLayer` throws an
`InputException` with code `invalidArgument` exactly when the number of rows
of the supplied weights differs from the size of the output of the layer
minus padding; when it does not throw, the stored weights equal the supplied
matrix. -/
theorem fullyConnectedLayer_ctor_check (lp : LayerParameters)
    (tin tout : Nat → Nat → Nat → ℚ) (w : MatrixQ) :
    (FullyConnectedLayer.ofWeightsMatrix lp tin tout w =
        Except.error (ELLException.inputException
          InputExceptionErrors.invalidArgument) ↔
      w.numRows ≠ lp.outputMinusPaddingShape.size) ∧
    (∀ layer, FullyConnectedLayer.ofWeightsMatrix lp tin tout w = Except.ok layer →
      layer.weights = w) := by
  unfold FullyConnectedLayer.ofWeightsMatrix
  by_cases h : w.numRows = lp.outputMinusPaddingShape.size
  · rw [if_neg (not_not_intro h)]
    refine ⟨⟨fun hbad => Except.noConfusion hbad, fun hne => absurd h hne⟩, ?_⟩
    intro layer hl
    rw [← Except.ok.inj hl]
  · rw [if_pos h]
    exact ⟨⟨fun _ => h, fun _ => rfl⟩,
           fun layer hl => Except.noConfusion hl⟩

/-- Witness for C9: a one-by-one layer accepting a one-row weight matrix and
storing it unchanged. -/
theorem fullyConnectedLayer_ctor_check_witness :
    FullyConnectedLayer.ofWeightsMatrix ⟨⟨1, 1, 1⟩, ⟨1, 1, 1⟩⟩
        (fun _ _ _ => 0) (fun _ _ _ => 0) ⟨[[(2 : ℚ)]]⟩ =
      Except.ok
        { layerParameters := ⟨⟨1, 1, 1⟩, ⟨1, 1, 1⟩⟩,
          weights := ⟨[[(2 : ℚ)]]⟩,
          shapedInput := List.replicate 1 0,
          outputVector := List.replicate 1 0,
          inputTensor := fun _ _ _ => 0,
          outputTensor := fun _ _ _ => 0 } ∧
    ({ layerParameters := ⟨⟨1, 1, 1⟩, ⟨1, 1, 1⟩⟩,
       weights := ⟨[[(2 : ℚ)]]⟩,
       shapedInput := List.replicate 1 0,
       outputVector := List.replicate 1 0,
       inputTensor := fun _ _ _ => 0,
       outputTensor := fun _ _ _ => 0 } : FullyConnectedLayer).weights =
      ⟨[[(2 : ℚ)]]⟩ := by
  refine ⟨rfl, ?_⟩
  exact (fullyConnectedLayer_ctor_check ⟨⟨1, 1, 1⟩, ⟨1, 1, 1⟩⟩
    (fun _ _ _ => 0) (fun _ _ _ => 0) ⟨[[(2 : ℚ)]]⟩).2 _ rfl

theorem portDeclared_append (l1 l2 : List Node) (r : PortRef) :
    portDeclared (l1 ++ l2) r = (portDeclared l1 r || portDeclared l2 r) := by
  unfold portDeclared
  exact List.any_append

theorem idIndex_cons (n : Node) (rest : List Node) (nid : Nat) :
    idIndex (n :: rest) nid =
      if n.id = nid then some 0 else (idIndex rest nid).map (· + 1) := rfl

theorem idIndex_append_some (l1 l2 : List Node) (nid j : Nat)
    (h : idIndex l1 nid = some j) : idIndex (l1 ++ l2) nid = some j := by
  induction l1 generalizing j with
  | nil => cases h
  | cons n rest ih =>
    rw [idIndex_cons] at h
    rw [List.cons_append, idIndex_cons]
    by_cases hn : n.id = nid
    · rw [if_pos hn] at h ⊢
      exact h
    · rw [if_neg hn] at h ⊢
      cases hj : idIndex rest nid with
      | none => rw [hj] at h; cases h
      | some j0 =>
        rw [hj] at h
        rw [ih j0 hj]
        exact h

theorem idIndex_isSome_of_declared (l : List Node) (r : PortRef)
    (hd : portDeclared l r = true) : (idIndex l r.node).isSome = true := by
  induction l with
  | nil => cases hd
  | cons n rest ih =>
    rw [idIndex_cons]
    by_cases hn : n.id = r.node
    · rw [if_pos hn]
      rfl
    · rw [if_neg hn]
      unfold portDeclared at hd
      rw [List.any_cons, Bool.or_eq_true] at hd
      rcases hd with h1 | h2
      · rw [Bool.and_eq_true, decide_eq_true_eq] at h1
        exact absurd h1.1 hn
      · have := ih h2
        cases hrest : idIndex rest r.node with
        | none => rw [hrest] at this; cases this
        | some j => rfl

theorem portDeclared_get (l : List Node) (r : PortRef) (hnd : idsNodup l)
    (hd : portDeclared l r = true) :
    ∃ j, ∃ h : j < l.length, idIndex l r.node = some j ∧
      (l.get ⟨j, h⟩).id = r.node ∧ r.port < (l.get ⟨j, h⟩).numOutputs := by
  induction l with
  | nil => cases hd
  | cons n rest ih =>
    unfold portDeclared at hd
    rw [List.any_cons, Bool.or_eq_true] at hd
    unfold idsNodup at hnd
    rw [List.map_cons, List.nodup_cons] at hnd
    by_cases hn : n.id = r.node
    · refine ⟨0, Nat.succ_pos _, ?_, hn, ?_⟩
      · rw [idIndex_cons, if_pos hn]
      · rcases hd with h1 | h2
        · rw [Bool.and_eq_true, decide_eq_true_eq, decide_eq_true_eq] at h1
          exact h1.2
        · exfalso
          obtain ⟨m, hm, hmid⟩ := List.any_eq_true.mp h2
          rw [Bool.and_eq_true, decide_eq_true_eq] at hmid
          refine hnd.1 ?_
          rw [hn, ← hmid.1]
          exact List.mem_map_of_mem Node.id hm
    · have h2 : rest.any (fun m => m.id = r.node && decide (r.port < m.numOutputs)) = true := by
        rcases hd with h1 | h2
        · rw [Bool.and_eq_true, decide_eq_true_eq] at h1
          exact absurd h1.1 hn
        · exact h2
      obtain ⟨j, hj, hidx, hid, hport⟩ := ih hnd.2 h2
      refine ⟨j + 1, Nat.succ_lt_succ hj, ?_, hid, hport⟩
      rw [idIndex_cons, if_neg hn, hidx]
      rfl

theorem lookupMap_single (a b r : PortRef) :
    lookupMap [(a, b)] r = if a = r then some b else none := by
  by_cases h : a = r <;> simp [lookupMap, List.find?, h]

theorem lookup_portEntries (oldId newId k : Nat) (r : PortRef) :
    lookupMap (portEntries oldId newId k) r =
      if r.node = oldId ∧ r.port < k then some ⟨newId, r.port⟩ else none := by
  obtain ⟨rn, rp⟩ := r
  induction k with
  | zero => simp [portEntries, lookupMap]
  | succ k ih =>
    unfold portEntries
    rw [lookupMap_append, ih, lookupMap_single]
    by_cases h1 : rn = oldId ∧ rp < k
    · have hsingle : ¬(({ node := oldId, port := k } : PortRef) =
          { node := rn, port := rp }) := by
        intro h
        have hpk : rp = k := by cases h; rfl
        omega
      have hcond : rn = oldId ∧ rp < k + 1 := ⟨h1.1, Nat.lt_succ_of_lt h1.2⟩
      rw [if_pos h1, if_neg hsingle, if_pos hcond]
      rfl
    · rw [if_neg h1]
      by_cases h2 : ({ node := oldId, port := k } : PortRef) = { node := rn, port := rp }
      · have hn : rn = oldId := by cases h2; rfl
        have hp : rp = k := by cases h2; rfl
        have hcond : rn = oldId ∧ rp < k + 1 := ⟨hn, by omega⟩
        rw [if_pos h2, if_pos hcond]
        simp [hp]
      · have hne : ¬(rn = oldId ∧ rp < k + 1) := by
          rintro ⟨ha, hb⟩
          rcases Nat.lt_succ_iff_lt_or_eq.mp hb with hlt | heq
          · exact h1 ⟨ha, hlt⟩
          · exact h2 (by rw [ha, heq])
        rw [if_neg h2, if_neg hne]
        rfl

theorem mapEntriesFrom_append (b : Nat) (l1 l2 : List Node) :
    mapEntriesFrom b (l1 ++ l2) =
      mapEntriesFrom b l1 ++ mapEntriesFrom (b + l1.length) l2 := by
  induction l1 generalizing b with
  | nil => simp [mapEntriesFrom]
  | cons n rest ih =>
    show portEntries n.id b n.numOutputs ++ mapEntriesFrom (b + 1) (rest ++ l2) = _
    rw [ih (b + 1)]
    have harith : b + 1 + rest.length = b + (n :: rest).length := by
      simp [List.length_cons]
      omega
    rw [harith, ← List.append_assoc]
    rfl

theorem lookup_mapEntriesFrom_isSome (b : Nat) (l : List Node) (r : PortRef) :
    (lookupMap (mapEntriesFrom b l) r).isSome = portDeclared l r := by
  induction l generalizing b with
  | nil => rfl
  | cons n rest ih =>
    show (lookupMap (portEntries n.id b n.numOutputs ++ mapEntriesFrom (b + 1) rest) r).isSome = _
    rw [lookupMap_append, lookup_portEntries]
    unfold portDeclared
    rw [List.any_cons]
    by_cases hn : r.node = n.id
    · by_cases hp : r.port < n.numOutputs
      · rw [if_pos ⟨hn, hp⟩]
        simp [hn, hp]
      · rw [if_neg (by rintro ⟨_, h⟩; exact hp h)]
        have hrest := ih (b + 1)
        unfold portDeclared at hrest
        simp [hn, hp, hrest]
    · rw [if_neg (by rintro ⟨h, _⟩; exact hn h)]
      have hn2 : ¬n.id = r.node := fun h => hn h.symm
      have hrest := ih (b + 1)
      unfold portDeclared at hrest
      simp [hn2, hrest]

theorem lookup_mapEntriesFrom_some (b : Nat) (l : List Node) (r : PortRef) (j : Nat)
    (hnd : idsNodup l) (hd : portDeclared l r = true)
    (hidx : idIndex l r.node = some j) :
    lookupMap (mapEntriesFrom b l) r = some ⟨b + j, r.port⟩ := by
  induction l generalizing b j with
  | nil => cases hd
  | cons n rest ih =>
    unfold idsNodup at hnd
    rw [List.map_cons, List.nodup_cons] at hnd
    unfold portDeclared at hd
    rw [List.any_cons, Bool.or_eq_true] at hd
    show lookupMap (portEntries n.id b n.numOutputs ++ mapEntriesFrom (b + 1) rest) r = _
    rw [lookupMap_append, lookup_portEntries]
    rw [idIndex_cons] at hidx
    by_cases hn : n.id = r.node
    · rw [if_pos hn] at hidx
      have hj : j = 0 := by cases hidx; rfl
      have hp : r.port < n.numOutputs := by
        rcases hd with h1 | h2
        · rw [Bool.and_eq_true, decide_eq_true_eq, decide_eq_true_eq] at h1
          exact h1.2
        · exfalso
          obtain ⟨m, hm, hmid⟩ := List.any_eq_true.mp h2
          rw [Bool.and_eq_true, decide_eq_true_eq] at hmid
          refine hnd.1 ?_
          rw [hn, ← hmid.1]
          exact List.mem_map_of_mem Node.id hm
      rw [if_pos ⟨hn.symm, hp⟩, hj]
      rfl
    · rw [if_neg hn] at hidx
      cases hrest : idIndex rest r.node with
      | none => rw [hrest] at hidx; cases hidx
      | some j0 =>
        rw [hrest] at hidx
        have hj : j = j0 + 1 := by cases hidx; rfl
        have hd2 : portDeclared rest r = true := by
          rcases hd with h1 | h2
          · rw [Bool.and_eq_true, decide_eq_true_eq] at h1
            exact absurd h1.1 hn
          · exact h2
        rw [if_neg (by rintro ⟨h, _⟩; exact hn h.symm)]
        have := ih (b + 1) j0 hnd.2 hd2 hrest
        rw [this, hj]
        have : b + 1 + j0 = b + (j0 + 1) := by omega
        rw [this]
        rfl

theorem nodesWf_cons (s : List Node) (n : Node) (l : List Node) :
    nodesWf s (n :: l) =
      ((!(s.any (fun m => m.id = n.id))) &&
       n.inputs.all (fun r => portDeclared s r) &&
       nodesWf (s ++ [n]) l) := rfl

theorem nodesWf_append (s l1 l2 : List Node) :
    nodesWf s (l1 ++ l2) = (nodesWf s l1 && nodesWf (s ++ l1) l2) := by
  induction l1 generalizing s with
  | nil => simp [nodesWf]
  | cons n rest ih =>
    rw [List.cons_append, nodesWf_cons, nodesWf_cons, ih (s ++ [n]),
      List.append_cons s n rest]
    exact (Bool.and_assoc _ _ _).symm

theorem nodesWf_fresh (s l : List Node) (h : nodesWf s l = true) :
    ∀ m ∈ l, ∀ k ∈ s, ¬k.id = m.id := by
  induction l generalizing s with
  | nil => intro m hm; cases hm
  | cons n rest ih =>
    unfold nodesWf at h
    rw [Bool.and_eq_true, Bool.and_eq_true] at h
    intro m hm k hk
    rcases List.mem_cons.mp hm with rfl | hm2
    · have hfresh := h.1.1
      rw [Bool.not_eq_true', List.any_eq_false] at hfresh
      have := hfresh k hk
      simpa using this
    · exact ih (s ++ [n]) h.2 m hm2 k (List.mem_append_left _ hk)

theorem nodesWf_idsNodup (s l : List Node) (h : nodesWf s l = true)
    (hs : idsNodup s) : idsNodup (s ++ l) := by
  induction l generalizing s with
  | nil => simpa [idsNodup] using hs
  | cons n rest ih =>
    unfold nodesWf at h
    rw [Bool.and_eq_true, Bool.and_eq_true] at h
    have hfresh := h.1.1
    rw [Bool.not_eq_true', List.any_eq_false] at hfresh
    have hs2 : idsNodup (s ++ [n]) := by
      unfold idsNodup at hs ⊢
      rw [List.map_append]
      refine List.Nodup.append hs (List.nodup_singleton _) ?_
      intro a ha hb
      obtain ⟨k, hk, hkid⟩ := List.mem_map.mp ha
      rw [List.map_singleton, List.mem_singleton] at hb
      have := hfresh k hk
      simp only [decide_eq_true_eq] at this
      exact this (by rw [hkid, hb])
    have := ih (s ++ [n]) h.2 hs2
    simpa [List.append_assoc] using this

theorem nodesWf_inputs_declared (s l : List Node) (h : nodesWf s l = true) :
    ∀ m ∈ l, ∀ r ∈ m.inputs, portDeclared (s ++ l) r = true := by
  induction l generalizing s with
  | nil => intro m hm; cases hm
  | cons n rest ih =>
    unfold nodesWf at h
    rw [Bool.and_eq_true, Bool.and_eq_true] at h
    intro m hm r hr
    rcases List.mem_cons.mp hm with rfl | hm2
    · have hdecl : portDeclared s r = true := by
        have hall := h.1.2
        rw [List.all_eq_true] at hall
        simpa using hall r hr
      rw [show s ++ m :: rest = s ++ (m :: rest) from rfl, portDeclared_append, hdecl]
      rfl
    · have := ih (s ++ [n]) h.2 m hm2 r hr
      rwa [List.append_assoc] at this

theorem reachClosure_cons (n : Node) (ns : List Node) (S : List Nat) :
    reachClosure (n :: ns) S =
      if n.id ∈ reachClosure ns S then
        reachClosure ns S ++ n.inputs.map (fun r => r.node)
      else reachClosure ns S := rfl

theorem mem_reachClosure_tail (n : Node) (ns : List Node) (S : List Nat) (a : Nat)
    (h : a ∈ reachClosure ns S) : a ∈ reachClosure (n :: ns) S := by
  rw [reachClosure_cons]
  split
  · exact List.mem_append_left _ h
  · exact h

theorem reachClosure_closed (ns : List Node) (s : List Node) (S : List Nat)
    (hwf : nodesWf s ns = true) :
    ∀ n ∈ ns, n.id ∈ reachClosure ns S →
      ∀ r ∈ n.inputs, r.node ∈ reachClosure ns S := by
  induction ns generalizing s with
  | nil => intro n hn; cases hn
  | cons n0 rest ih =>
    unfold nodesWf at hwf
    rw [Bool.and_eq_true, Bool.and_eq_true] at hwf
    intro n hn hmem r hr
    rcases List.mem_cons.mp hn with rfl | hn2
    · rw [reachClosure_cons] at hmem ⊢
      by_cases hc : n.id ∈ reachClosure rest S
      · rw [if_pos hc]
        exact List.mem_append_right _ (List.mem_map_of_mem _ hr)
      · rw [if_neg hc] at hmem
        exact absurd hmem hc
    · have hmem2 : n.id ∈ reachClosure rest S := by
        rw [reachClosure_cons] at hmem
        by_cases hc : n0.id ∈ reachClosure rest S
        · rw [if_pos hc] at hmem
          rcases List.mem_append.mp hmem with h1 | h2
          · exact h1
          · exfalso
            obtain ⟨r0, hr0, hid⟩ := List.mem_map.mp h2
            have hdecl : portDeclared s r0 = true := by
              have hall := hwf.1.2
              rw [List.all_eq_true] at hall
              simpa using hall r0 hr0
            obtain ⟨k, hk, hkp⟩ := List.any_eq_true.mp hdecl
            rw [Bool.and_eq_true, decide_eq_true_eq] at hkp
            have hfr := nodesWf_fresh (s ++ [n0]) rest hwf.2 n hn2 k
              (List.mem_append_left _ hk)
            exact hfr (by rw [hkp.1, hid])
        · rw [if_neg hc] at hmem
          exact hmem
      exact mem_reachClosure_tail n0 rest S r.node
        (ih (s ++ [n0]) hwf.2 n hn2 hmem2 r hr)

theorem nodesWf_filter (P : Node → Bool) (l : List Node) (s : List Node)
    (hwf : nodesWf s l = true)
    (hcl : ∀ n ∈ l, P n = true → ∀ r ∈ n.inputs, ∀ m : Node, m.id = r.node →
      P m = true) :
    nodesWf (s.filter P) (l.filter P) = true := by
  induction l generalizing s with
  | nil => rfl
  | cons n rest ih =>
    rw [nodesWf_cons, Bool.and_eq_true, Bool.and_eq_true] at hwf
    have hcl2 : ∀ m ∈ rest, P m = true → ∀ r ∈ m.inputs, ∀ k : Node,
        k.id = r.node → P k = true :=
      fun m hm => hcl m (List.mem_cons_of_mem n hm)
    by_cases hP : P n = true
    · rw [List.filter_cons_of_pos hP, nodesWf_cons, Bool.and_eq_true, Bool.and_eq_true]
      refine ⟨⟨?_, ?_⟩, ?_⟩
      · have hfresh := hwf.1.1
        rw [Bool.not_eq_true', List.any_eq_false] at hfresh
        rw [Bool.not_eq_true', List.any_eq_false]
        intro k hk
        exact hfresh k (List.mem_of_mem_filter hk)
      · rw [List.all_eq_true]
        intro r hr
        have hall := hwf.1.2
        rw [List.all_eq_true] at hall
        have hdecl := hall r hr
        obtain ⟨k, hk, hkp⟩ := List.any_eq_true.mp hdecl
        simp only [Bool.and_eq_true, decide_eq_true_eq] at hkp
        have hPk : P k = true :=
          hcl n (List.mem_cons_self n rest) hP r hr k hkp.1
        unfold portDeclared
        rw [List.any_eq_true]
        exact ⟨k, List.mem_filter.mpr ⟨hk, hPk⟩, by
          simp only [Bool.and_eq_true, decide_eq_true_eq]
          exact hkp⟩
      · have := ih (s ++ [n]) hwf.2 hcl2
        rwa [List.filter_append, List.filter_cons_of_pos hP, List.filter_nil] at this
    · rw [List.filter_cons_of_neg hP]
      have := ih (s ++ [n]) hwf.2 hcl2
      rwa [List.filter_append, List.filter_cons_of_neg hP, List.filter_nil,
        List.append_nil] at this

theorem renamedNodesFrom_length (v : List Node) (b : Nat) (l : List Node) :
    (renamedNodesFrom v b l).length = l.length := by
  induction l generalizing b with
  | nil => rfl
  | cons n rest ih =>
    show (renamedNodesFrom v (b + 1) rest).length + 1 = rest.length + 1
    rw [ih (b + 1)]

theorem renamedNodesFrom_append (v : List Node) (b : Nat) (l1 l2 : List Node) :
    renamedNodesFrom v b (l1 ++ l2) =
      renamedNodesFrom v b l1 ++ renamedNodesFrom v (b + l1.length) l2 := by
  induction l1 generalizing b with
  | nil => simp [renamedNodesFrom]
  | cons n rest ih =>
    show _ :: renamedNodesFrom v (b + 1) (rest ++ l2) = _
    rw [ih (b + 1)]
    have harith : b + 1 + rest.length = b + (n :: rest).length := by
      rw [List.length_cons]
      omega
    rw [harith]
    rfl

theorem renamedNodesFrom_get (v : List Node) (b : Nat) (l : List Node) (j : Nat)
    (h : j < l.length) (h2 : j < (renamedNodesFrom v b l).length) :
    (renamedNodesFrom v b l).get ⟨j, h2⟩ =
      { id := b + j, inputs := (l.get ⟨j, h⟩).inputs.map (renamePort v),
        numOutputs := (l.get ⟨j, h⟩).numOutputs,
        compilable := (l.get ⟨j, h⟩).compilable } := by
  induction l generalizing b j with
  | nil => cases h
  | cons n rest ih =>
    cases j with
    | zero => rfl
    | succ j =>
      have hj : j < rest.length := Nat.lt_of_succ_lt_succ h
      have hj2 : j < (renamedNodesFrom v (b + 1) rest).length := by
        rw [renamedNodesFrom_length]
        exact hj
      show (renamedNodesFrom v (b + 1) rest).get ⟨j, hj2⟩ = _
      rw [ih (b + 1) j hj hj2]
      have harith : b + 1 + j = b + (j + 1) := by omega
      rw [harith]
      rfl

theorem mem_renamedNodesFrom_id (v : List Node) (b : Nat) (l : List Node) (m : Node)
    (hm : m ∈ renamedNodesFrom v b l) : b ≤ m.id ∧ m.id < b + l.length := by
  induction l generalizing b with
  | nil => cases hm
  | cons n rest ih =>
    rw [List.length_cons]
    rcases List.mem_cons.mp hm with rfl | hm2
    · refine ⟨Nat.le_refl _, ?_⟩
      show b < b + (rest.length + 1)
      omega
    · obtain ⟨h1, h2⟩ := ih (b + 1) hm2
      constructor <;> omega

theorem renamedNodesFrom_cons (v : List Node) (b : Nat) (n : Node) (l : List Node) :
    renamedNodesFrom v b (n :: l) =
      { id := b,
        inputs := n.inputs.map (renamePort v),
        numOutputs := n.numOutputs,
        compilable := n.compilable } :: renamedNodesFrom v (b + 1) l := rfl

theorem renamedNodesFrom_wf (visited : List Node) (hnd : idsNodup visited) :
    ∀ rest pre : List Node, pre ++ rest = visited → nodesWf pre rest = true →
      nodesWf (renamedNodesFrom visited 0 pre)
        (renamedNodesFrom visited pre.length rest) = true := by
  intro rest
  induction rest with
  | nil => intro pre _ _; rfl
  | cons n rest2 ih =>
    intro pre hsplit hwf
    rw [nodesWf_cons, Bool.and_eq_true, Bool.and_eq_true] at hwf
    rw [renamedNodesFrom_cons, nodesWf_cons, Bool.and_eq_true, Bool.and_eq_true]
    refine ⟨⟨?_, ?_⟩, ?_⟩
    · rw [Bool.not_eq_true', List.any_eq_false]
      intro k hk
      obtain ⟨hk1, hk2⟩ := mem_renamedNodesFrom_id visited 0 pre k hk
      simp only [decide_eq_true_eq]
      omega
    · rw [List.all_eq_true]
      intro r2 hr2
      obtain ⟨r, hr, hrEq⟩ := List.mem_map.mp hr2
      have hdecl : portDeclared pre r = true := by
        have hall := hwf.1.2
        rw [List.all_eq_true] at hall
        exact hall r hr
      have hndpre : idsNodup pre := by
        unfold idsNodup
        have : (visited.map Node.id).Nodup := hnd
        rw [← hsplit, List.map_append] at this
        exact this.of_append_left
      obtain ⟨j, hj, hidx, hid, hport⟩ := portDeclared_get pre r hndpre hdecl
      have hidxv : idIndex visited r.node = some j := by
        rw [← hsplit]
        exact idIndex_append_some pre _ r.node j hidx
      have hr2eq : r2 = { node := j, port := r.port } := by
        rw [← hrEq]
        unfold renamePort
        rw [hidxv]
      have hlen : j < (renamedNodesFrom visited 0 pre).length := by
        rw [renamedNodesFrom_length]
        exact hj
      have hget := renamedNodesFrom_get visited 0 pre j hj hlen
      unfold portDeclared
      rw [List.any_eq_true]
      refine ⟨(renamedNodesFrom visited 0 pre).get ⟨j, hlen⟩, List.get_mem _ _ _, ?_⟩
      rw [hget, hr2eq]
      simp only [Bool.and_eq_true, decide_eq_true_eq]
      exact ⟨by omega, hport⟩
    · have hthis := ih (pre ++ [n]) (by rw [List.append_assoc]; exact hsplit) hwf.2
      rw [renamedNodesFrom_append, List.length_append] at hthis
      simp only [List.length_cons, List.length_nil, Nat.zero_add] at hthis
      exact hthis

theorem renamedNodes_wf (visited : List Node) (hwf : nodesWf [] visited = true) :
    nodesWf [] (renamedNodes visited) = true := by
  have hnd : idsNodup visited := nodesWf_idsNodup [] visited hwf List.nodup_nil
  exact renamedNodesFrom_wf visited hnd visited [] rfl hwf

theorem renamePort_append_of_declared (pre suf : List Node) (r : PortRef)
    (hd : portDeclared pre r = true) :
    renamePort (pre ++ suf) r = renamePort pre r := by
  have hsome := idIndex_isSome_of_declared pre r hd
  obtain ⟨j, hj⟩ := Option.isSome_iff_exists.mp hsome
  unfold renamePort
  rw [hj, idIndex_append_some pre suf r.node j hj]

theorem renamedNodesFrom_stable (pre suf : List Node) (b : Nat) (l : List Node)
    (hd : ∀ m ∈ l, ∀ r ∈ m.inputs, portDeclared pre r = true) :
    renamedNodesFrom (pre ++ suf) b l = renamedNodesFrom pre b l := by
  induction l generalizing b with
  | nil => rfl
  | cons n rest ih =>
    rw [renamedNodesFrom_cons, renamedNodesFrom_cons]
    have hinputs : n.inputs.map (renamePort (pre ++ suf)) =
        n.inputs.map (renamePort pre) := by
      apply List.map_congr_left
      intro r hr
      exact renamePort_append_of_declared pre suf r
        (hd n (List.mem_cons_self n rest) r hr)
    rw [hinputs, ih (b + 1) (fun m hm => hd m (List.mem_cons_of_mem n hm))]

theorem lookup_mapEntriesFrom_renamePort (l : List Node) (r : PortRef)
    (hnd : idsNodup l) (hd : portDeclared l r = true) :
    lookupMap (mapEntriesFrom 0 l) r = some (renamePort l r) := by
  obtain ⟨j, hj⟩ := Option.isSome_iff_exists.mp (idIndex_isSome_of_declared l r hd)
  have := lookup_mapEntriesFrom_some 0 l r j hnd hd hj
  rw [this]
  unfold renamePort
  rw [hj, Nat.zero_add]

theorem resolveInputs_spec (pre : List Node) (inputs : List PortRef)
    (hnd : idsNodup pre) (hd : ∀ r ∈ inputs, portDeclared pre r = true) :
    resolveInputs (mapEntriesFrom 0 pre) inputs =
      some (inputs.map (renamePort pre)) := by
  induction inputs with
  | nil => rfl
  | cons r rest ih =>
    unfold resolveInputs
    rw [lookup_mapEntriesFrom_renamePort pre r hnd (hd r (List.mem_cons_self r rest)),
      ih (fun x hx => hd x (List.mem_cons_of_mem r hx))]
    rfl

theorem copyLoop_cons (st : CopyState) (n : Node) (l : List Node) :
    copyLoop st (n :: l) =
      match copyNode st n with
      | Except.error e => Except.error e
      | Except.ok st2 => copyLoop st2 l := rfl

theorem copyLoop_spec (rest : List Node) : ∀ pre : List Node,
    nodesWf [] pre = true → nodesWf pre rest = true →
    copyLoop { map := mapEntriesFrom 0 pre, newNodes := renamedNodes pre,
               nextId := pre.length } rest =
      Except.ok { map := mapEntriesFrom 0 (pre ++ rest),
                  newNodes := renamedNodes (pre ++ rest),
                  nextId := (pre ++ rest).length } := by
  induction rest with
  | nil =>
    intro pre _ _
    rw [List.append_nil]
    rfl
  | cons n rest2 ih =>
    intro pre h1 h2
    rw [nodesWf_cons, Bool.and_eq_true, Bool.and_eq_true] at h2
    have hnd : idsNodup pre := nodesWf_idsNodup [] pre h1 List.nodup_nil
    have hdecl : ∀ r ∈ n.inputs, portDeclared pre r = true := by
      have hall := h2.1.2
      rw [List.all_eq_true] at hall
      exact hall
    have hpredecl : ∀ m ∈ pre, ∀ r ∈ m.inputs, portDeclared pre r = true := by
      intro m hm r hr
      have := nodesWf_inputs_declared [] pre h1 m hm r hr
      simpa using this
    have hres := resolveInputs_spec pre n.inputs hnd hdecl
    rw [copyLoop_cons]
    unfold copyNode
    dsimp only
    rw [hres]
    dsimp only
    have hmap : mapEntriesFrom 0 pre ++ portEntries n.id pre.length n.numOutputs =
        mapEntriesFrom 0 (pre ++ [n]) := by
      rw [mapEntriesFrom_append, Nat.zero_add]
      show _ = _ ++ (portEntries n.id pre.length n.numOutputs ++ mapEntriesFrom _ [])
      rw [show mapEntriesFrom (pre.length + 1) ([] : List Node) = [] from rfl,
        List.append_nil]
    have hnodes : renamedNodes pre ++
        [{ id := pre.length, inputs := n.inputs.map (renamePort pre),
           numOutputs := n.numOutputs, compilable := n.compilable }] =
        renamedNodes (pre ++ [n]) := by
      unfold renamedNodes
      rw [renamedNodesFrom_append, Nat.zero_add]
      rw [renamedNodesFrom_stable pre [n] 0 pre hpredecl]
      congr 1
      rw [renamedNodesFrom_cons]
      have hinputs : n.inputs.map (renamePort (pre ++ [n])) =
          n.inputs.map (renamePort pre) := by
        apply List.map_congr_left
        intro r hr
        exact renamePort_append_of_declared pre [n] r (hdecl r hr)
      rw [hinputs]
      rfl
    have hwf1 : nodesWf [] (pre ++ [n]) = true := by
      rw [nodesWf_append]
      rw [Bool.and_eq_true]
      refine ⟨h1, ?_⟩
      show nodesWf ([] ++ pre) (n :: []) = true
      rw [List.nil_append, nodesWf_cons]
      rw [Bool.and_eq_true, Bool.and_eq_true]
      exact ⟨⟨h2.1.1, h2.1.2⟩, rfl⟩
    have hwf2 : nodesWf (pre ++ [n]) rest2 = true := h2.2
    have hstep := ih (pre ++ [n]) hwf1 hwf2
    have hlen : pre.length + 1 = (pre ++ [n]).length := by simp
    rw [hmap, hnodes, hlen, hstep, List.append_cons pre n rest2]

theorem visitedNodes_wf (m : Model) (outputIds : List Nat) (hwf : m.wf = true) :
    nodesWf [] (visitedNodes m outputIds) = true := by
  unfold Model.wf at hwf
  unfold visitedNodes
  have hcl : ∀ n ∈ m.nodes,
      decide (n.id ∈ reachClosure m.nodes outputIds) = true →
      ∀ r ∈ n.inputs, ∀ k : Node, k.id = r.node →
        decide (k.id ∈ reachClosure m.nodes outputIds) = true := by
    intro n hn hP r hr k hkid
    rw [decide_eq_true_eq] at hP ⊢
    rw [hkid]
    exact reachClosure_closed m.nodes [] outputIds hwf n hn hP r hr
  have := nodesWf_filter (fun n => decide (n.id ∈ reachClosure m.nodes outputIds))
    m.nodes [] hwf hcl
  simpa using this

theorem copyModelFiltered_spec (m : Model) (ctx : TransformContext)
    (outputIds : List Nat) (hwf : m.wf = true)
    (hvalid : outputIds.all (fun oid => m.nodes.any (fun n => n.id = oid)) = true) :
    CopyModelFiltered m ctx outputIds =
      Except.ok ({ nodes := renamedNodes (visitedNodes m outputIds) },
                 mapEntriesFrom 0 (visitedNodes m outputIds)) := by
  have hv := visitedNodes_wf m outputIds hwf
  have hrun := copyLoop_spec (visitedNodes m outputIds) [] rfl hv
  unfold CopyModelFiltered
  rw [if_pos hvalid]
  rw [show ({ map := [], newNodes := [], nextId := 0 } : CopyState) =
      { map := mapEntriesFrom 0 [], newNodes := renamedNodes [],
        nextId := List.length ([] : List Node) } from rfl]
  rw [hrun, List.nil_append]

theorem copyModelFiltered_foreign (m : Model) (ctx : TransformContext)
    (outputIds : List Nat)
    (hinvalid : outputIds.all (fun oid => m.nodes.any (fun n => n.id = oid)) = false) :
    CopyModelFiltered m ctx outputIds = Except.error TransformError.notFound := by
  unfold CopyModelFiltered
  rw [if_neg (by rw [hinvalid]; exact Bool.false_ne_true)]

theorem copyModel_spec (m : Model) (ctx : TransformContext) (hwf : m.wf = true) :
    CopyModel m ctx =
      Except.ok ({ nodes := renamedNodes m.nodes }, mapEntriesFrom 0 m.nodes) := by
  unfold Model.wf at hwf
  have hrun := copyLoop_spec m.nodes [] rfl hwf
  unfold CopyModel
  rw [show ({ map := [], newNodes := [], nextId := 0 } : CopyState) =
      { map := mapEntriesFrom 0 [], newNodes := renamedNodes [],
        nextId := List.length ([] : List Node) } from rfl]
  rw [hrun, List.nil_append]

theorem idIndex_lt_length (l : List Node) (nid j : Nat)
    (hj : idIndex l nid = some j) : j < l.length := by
  induction l generalizing j with
  | nil => cases hj
  | cons n rest ih =>
    rw [idIndex_cons] at hj
    by_cases hn : n.id = nid
    · rw [if_pos hn] at hj
      cases hj
      exact Nat.succ_pos _
    · rw [if_neg hn] at hj
      cases hrest : idIndex rest nid with
      | none => rw [hrest] at hj; cases hj
      | some j0 =>
        rw [hrest] at hj
        have hj0 : j = j0 + 1 := by cases hj; rfl
        subst hj0
        exact Nat.succ_lt_succ (ih j0 hrest)

theorem idIndex_renamedNodesFrom (v : List Node) (l : List Node) (b j : Nat)
    (h : j < l.length) : idIndex (renamedNodesFrom v b l) (b + j) = some j := by
  induction l generalizing b j with
  | nil => cases h
  | cons n rest ih =>
    rw [renamedNodesFrom_cons, idIndex_cons]
    dsimp only
    cases j with
    | zero => rw [if_pos (by omega : b = b + 0)]
    | succ j =>
      rw [if_neg (by omega : ¬b = b + (j + 1))]
      have harith : b + (j + 1) = b + 1 + j := by omega
      rw [harith, ih (b + 1) j (Nat.lt_of_succ_lt_succ h)]
      rfl

theorem renamePort_fixed (v : List Node) (r : PortRef)
    (hd : portDeclared v r = true) :
    renamePort (renamedNodes v) (renamePort v r) = renamePort v r := by
  obtain ⟨j, hj⟩ := Option.isSome_iff_exists.mp (idIndex_isSome_of_declared v r hd)
  have hjlt : j < v.length := idIndex_lt_length v r.node j hj
  have hr1 : renamePort v r = { node := j, port := r.port } := by
    unfold renamePort
    rw [hj]
  rw [hr1]
  unfold renamePort
  have hidx : idIndex (renamedNodes v) j = some j := by
    have := idIndex_renamedNodesFrom v v 0 j hjlt
    rwa [Nat.zero_add] at this
  rw [hidx]

theorem structurallyIdentical_renamed (v : List Node) (hwf : nodesWf [] v = true) :
    structurallyIdentical { nodes := v } { nodes := renamedNodes v } := by
  constructor
  · show v.length = (renamedNodesFrom v 0 v).length
    rw [renamedNodesFrom_length]
  · intro i h1 h2
    have h1v : i < v.length := h1
    have h2v : i < (renamedNodesFrom v 0 v).length := h2
    have hget := renamedNodesFrom_get v 0 v i h1v h2v
    have hmem : v.get ⟨i, h1v⟩ ∈ v := List.get_mem v i h1v
    refine ⟨?_, ?_, ?_⟩
    · show (v.get ⟨i, h1v⟩).numOutputs =
        ((renamedNodesFrom v 0 v).get ⟨i, h2v⟩).numOutputs
      rw [hget]
    · show (v.get ⟨i, h1v⟩).compilable =
        ((renamedNodesFrom v 0 v).get ⟨i, h2v⟩).compilable
      rw [hget]
    · show (v.get ⟨i, h1v⟩).inputs.map (renamePort v) =
        ((renamedNodesFrom v 0 v).get ⟨i, h2v⟩).inputs.map
          (renamePort (renamedNodes v))
      rw [hget]
      show _ = ((v.get ⟨i, h1v⟩).inputs.map (renamePort v)).map
        (renamePort (renamedNodes v))
      rw [List.map_map]
      apply List.map_congr_left
      intro r hr
      have hd : portDeclared v r = true := by
        have := nodesWf_inputs_declared [] v hwf (v.get ⟨i, h1v⟩) hmem r hr
        simpa using this
      exact (renamePort_fixed v r hd).symm


/-- C3: for every well-formed model and optional output filter, the filtered
copy with a filter whose ids all name nodes of the source model succeeds and
returns a model that is a valid topological order, with node count and
connectivity isomorphic to the backward-reachable closure of the source from
the filter, and the map holds an entry exactly for the output ports of
visited nodes; a filter naming a node absent from the source model fails
with not-found; without a filter the whole model is copied with the same
guarantees. -/
theorem copyModel_topological_isomorphism (m : Model) (ctx : TransformContext)
    (outputIds : List Nat) (hwf : m.wf = true) :
    (outputIds.all (fun oid => m.nodes.any (fun n => n.id = oid)) = true →
      ∃ res pm, CopyModelFiltered m ctx outputIds = Except.ok (res, pm) ∧
        Model.wf res = true ∧
        res.nodes.length = (visitedNodes m outputIds).length ∧
        structurallyIdentical { nodes := visitedNodes m outputIds } res ∧
        (∀ r, (lookupMap pm r).isSome = portDeclared (visitedNodes m outputIds) r)) ∧
    (outputIds.all (fun oid => m.nodes.any (fun n => n.id = oid)) = false →
      CopyModelFiltered m ctx outputIds = Except.error TransformError.notFound) ∧
    (∃ resAll pmAll, CopyModel m ctx = Except.ok (resAll, pmAll) ∧
      Model.wf resAll = true ∧
      resAll.nodes.length = m.nodes.length ∧
      structurallyIdentical m resAll ∧
      (∀ r, (lookupMap pmAll r).isSome = portDeclared m.nodes r)) := by
  have hvwf := visitedNodes_wf m outputIds hwf
  have hmwf : nodesWf [] m.nodes = true := hwf
  refine ⟨?_, ?_, ?_⟩
  · intro hvalid
    refine ⟨{ nodes := renamedNodes (visitedNodes m outputIds) },
      mapEntriesFrom 0 (visitedNodes m outputIds),
      copyModelFiltered_spec m ctx outputIds hwf hvalid,
      renamedNodes_wf (visitedNodes m outputIds) hvwf, ?_,
      structurallyIdentical_renamed (visitedNodes m outputIds) hvwf,
      fun r => lookup_mapEntriesFrom_isSome 0 (visitedNodes m outputIds) r⟩
    show (renamedNodesFrom _ 0 _).length = _
    rw [renamedNodesFrom_length]
  · intro hinvalid
    exact copyModelFiltered_foreign m ctx outputIds hinvalid
  · refine ⟨{ nodes := renamedNodes m.nodes }, mapEntriesFrom 0 m.nodes,
      copyModel_spec m ctx hwf,
      renamedNodes_wf m.nodes hmwf, ?_,
      structurallyIdentical_renamed m.nodes hmwf,
      fun r => lookup_mapEntriesFrom_isSome 0 m.nodes r⟩
    show (renamedNodesFrom _ 0 _).length = _
    rw [renamedNodesFrom_length]

/-- Witness for C3: the two-node chain filtered on its sink node, and the
not-found failure on a filter id naming no node of the chain. -/
theorem copyModel_topological_isomorphism_witness :
    Model.wf chainModel = true ∧
    List.all [7] (fun oid => chainModel.nodes.any (fun n => n.id = oid)) = true ∧
    (∃ res pm, CopyModelFiltered chainModel ⟨[], none⟩ [7] = Except.ok (res, pm) ∧
      Model.wf res = true ∧
      res.nodes.length = (visitedNodes chainModel [7]).length ∧
      structurallyIdentical { nodes := visitedNodes chainModel [7] } res ∧
      (∀ r, (lookupMap pm r).isSome = portDeclared (visitedNodes chainModel [7]) r)) ∧
    List.all [999] (fun oid => chainModel.nodes.any (fun n => n.id = oid)) = false ∧
    CopyModelFiltered chainModel ⟨[], none⟩ [999] =
      Except.error TransformError.notFound ∧
    (∃ resAll pmAll, CopyModel chainModel ⟨[], none⟩ = Except.ok (resAll, pmAll) ∧
      Model.wf resAll = true ∧
      resAll.nodes.length = chainModel.nodes.length ∧
      structurallyIdentical chainModel resAll ∧
      (∀ r, (lookupMap pmAll r).isSome = portDeclared chainModel.nodes r)) :=
  ⟨by decide, by decide,
   (copyModel_topological_isomorphism chainModel ⟨[], none⟩ [7] (by decide)).1
     (by decide),
   by decide,
   (copyModel_topological_isomorphism chainModel ⟨[], none⟩ [999] (by decide)).2.1
     (by decide),
   (copyModel_topological_isomorphism chainModel ⟨[], none⟩ [7] (by decide)).2.2⟩

/-- C5: `GetCorrespondingPort` returns the mapped port when the queried port
has an entry and fails with a not-found error when it was never mapped; in
particular, after a copy pass, querying any port outside the transformed
closure fails with not-found rather than returning a port. -/
theorem getCorrespondingPort_spec :
    (∀ (mp : PortOutputsMap) (p q : PortRef), lookupMap mp p = some q →
      GetCorrespondingPort mp p = Except.ok q) ∧
    (∀ (mp : PortOutputsMap) (p : PortRef), lookupMap mp p = none →
      GetCorrespondingPort mp p = Except.error TransformError.notFound) ∧
    (∀ (m : Model) (ctx : TransformContext) (outputIds : List Nat)
       (res : Model) (pm : PortOutputsMap) (r : PortRef),
      m.wf = true →
      CopyModelFiltered m ctx outputIds = Except.ok (res, pm) →
      portDeclared (visitedNodes m outputIds) r = false →
      GetCorrespondingPort pm r = Except.error TransformError.notFound) := by
  refine ⟨?_, ?_, ?_⟩
  · intro mp p q h
    unfold GetCorrespondingPort
    rw [h]
  · intro mp p h
    unfold GetCorrespondingPort
    rw [h]
  · intro m ctx outs res pm r hwf hrun hout
    have hvalid : outs.all (fun oid => m.nodes.any (fun n => n.id = oid)) = true := by
      cases hv : outs.all (fun oid => m.nodes.any (fun n => n.id = oid)) with
      | true => rfl
      | false =>
        rw [copyModelFiltered_foreign m ctx outs hv] at hrun
        cases hrun
    rw [copyModelFiltered_spec m ctx outs hwf hvalid] at hrun
    have hpair := Except.ok.inj hrun
    have hpm : mapEntriesFrom 0 (visitedNodes m outs) = pm :=
      congrArg Prod.snd hpair
    have hisSome := lookup_mapEntriesFrom_isSome 0 (visitedNodes m outs) r
    rw [hout, hpm] at hisSome
    have hnone : lookupMap pm r = none := by
      cases hlook : lookupMap pm r with
      | none => rfl
      | some q =>
        rw [hlook] at hisSome
        cases hisSome
    unfold GetCorrespondingPort
    rw [hnone]

/-- Witness for C5: a mapped port resolves, an unmapped port fails, and a
port outside the copied closure fails after the pass. -/
theorem getCorrespondingPort_spec_witness :
    lookupMap [((⟨0, 0⟩ : PortRef), (⟨1, 0⟩ : PortRef))] ⟨0, 0⟩ =
      some (⟨1, 0⟩ : PortRef) ∧
    GetCorrespondingPort [((⟨0, 0⟩ : PortRef), (⟨1, 0⟩ : PortRef))] ⟨0, 0⟩ =
      Except.ok (⟨1, 0⟩ : PortRef) ∧
    lookupMap [((⟨0, 0⟩ : PortRef), (⟨1, 0⟩ : PortRef))] ⟨9, 9⟩ = none ∧
    GetCorrespondingPort [((⟨0, 0⟩ : PortRef), (⟨1, 0⟩ : PortRef))] ⟨9, 9⟩ =
      Except.error TransformError.notFound ∧
    Model.wf chainModel = true ∧
    portDeclared (visitedNodes chainModel [5]) ⟨7, 0⟩ = false ∧
    GetCorrespondingPort (mapEntriesFrom 0 (visitedNodes chainModel [5])) ⟨7, 0⟩ =
      Except.error TransformError.notFound := by
  refine ⟨by decide, ?_, by decide, ?_, by decide, by decide, ?_⟩
  · exact getCorrespondingPort_spec.1 [((⟨0, 0⟩ : PortRef), (⟨1, 0⟩ : PortRef))]
      ⟨0, 0⟩ ⟨1, 0⟩ (by decide)
  · exact getCorrespondingPort_spec.2.1 [((⟨0, 0⟩ : PortRef), (⟨1, 0⟩ : PortRef))]
      ⟨9, 9⟩ (by decide)
  · exact getCorrespondingPort_spec.2.2 chainModel ⟨[], none⟩ [5]
      { nodes := renamedNodes (visitedNodes chainModel [5]) }
      (mapEntriesFrom 0 (visitedNodes chainModel [5]))
      ⟨7, 0⟩ (by decide)
      (copyModelFiltered_spec chainModel ⟨[], none⟩ [5] (by decide) (by decide))
      (by decide)

/-- C8: `RefineModel` with `maxIterations = 0` attempts no refinement,
returning the input model unchanged, which is structurally identical to the
model returned by a plain `CopyModel` call on the same model and context. -/
theorem refineModel_zero_iterations (m : Model) (ctx : TransformContext)
    (refineOp : Node → Option (List Node)) (hwf : m.wf = true) :
    RefineModel m ctx refineOp 0 = m ∧
    ∃ res pm, CopyModel m ctx = Except.ok (res, pm) ∧
      structurallyIdentical (RefineModel m ctx refineOp 0) res := by
  refine ⟨rfl, { nodes := renamedNodes m.nodes }, mapEntriesFrom 0 m.nodes,
    copyModel_spec m ctx hwf, ?_⟩
  show structurallyIdentical m _
  exact structurallyIdentical_renamed m.nodes hwf

/-- Witness for C8: the two-node chain refined with a zero budget. -/
theorem refineModel_zero_iterations_witness :
    Model.wf chainModel = true ∧
    (RefineModel chainModel ⟨[], none⟩ (fun _ => none) 0 = chainModel ∧
    ∃ res pm, CopyModel chainModel ⟨[], none⟩ = Except.ok (res, pm) ∧
      structurallyIdentical (RefineModel chainModel ⟨[], none⟩ (fun _ => none) 0)
        res) :=
  ⟨by decide,
   refineModel_zero_iterations chainModel ⟨[], none⟩ (fun _ => none) (by decide)⟩

theorem getD_append_left (l1 l2 : List ℚ) (n : Nat) (h : n < l1.length) :
    (l1 ++ l2).getD n 0 = l1.getD n 0 := by
  rw [List.getD_eq_getElem?_getD, List.getD_eq_getElem?_getD,
    List.getElem?_append_left h]

theorem getD_append_right_q (l1 l2 : List ℚ) (n : Nat) (h : l1.length ≤ n) :
    (l1 ++ l2).getD n 0 = l2.getD (n - l1.length) 0 := by
  rw [List.getD_eq_getElem?_getD, List.getD_eq_getElem?_getD,
    List.getElem?_append_right h]

theorem getD_range_map (n k : Nat) (f : Nat → ℚ) (h : k < n) :
    ((List.range n).map f).getD k 0 = f k := by
  have hk : k < ((List.range n).map f).length := by simpa using h
  rw [List.getD_eq_getElem?_getD, List.getElem?_eq_getElem hk]
  simp

theorem flatMap_length_const (f : Nat → List ℚ) (L : Nat) (l : List Nat)
    (h : ∀ x ∈ l, (f x).length = L) : (l.flatMap f).length = l.length * L := by
  induction l with
  | nil => simp
  | cons x rest ih =>
    rw [List.flatMap_cons, List.length_append, h x (List.mem_cons_self x rest),
      ih (fun y hy => h y (List.mem_cons_of_mem x hy)), List.length_cons,
      Nat.succ_mul]
    omega

theorem flatMap_getD_const (f : Nat → List ℚ) (L : Nat) :
    ∀ (l : List Nat) (q rr : Nat), (∀ x ∈ l, (f x).length = L) → rr < L →
    ∀ hq : q < l.length,
    (l.flatMap f).getD (q * L + rr) 0 = (f (l.get ⟨q, hq⟩)).getD rr 0 := by
  intro l
  induction l with
  | nil => intro q rr _ _ hq; cases hq
  | cons x rest ih =>
    intro q rr hlen hrr hq
    rw [List.flatMap_cons]
    cases q with
    | zero =>
      rw [Nat.zero_mul, Nat.zero_add, getD_append_left]
      · rfl
      · rw [hlen x (List.mem_cons_self x rest)]
        exact hrr
    | succ q =>
      have hxlen : (f x).length = L := hlen x (List.mem_cons_self x rest)
      rw [Nat.succ_mul, getD_append_right_q, hxlen]
      · have harith : q * L + L + rr - L = q * L + rr := by omega
        rw [harith]
        exact ih q rr (fun y hy => hlen y (List.mem_cons_of_mem x hy)) hrr
          (Nat.lt_of_succ_lt_succ hq)
      · rw [hxlen]
        omega

theorem flatMap_range_getD (n : Nat) (f : Nat → List ℚ) (L : Nat)
    (hlen : ∀ x, x < n → (f x).length = L) (q rr : Nat) (hq : q < n)
    (hrr : rr < L) :
    ((List.range n).flatMap f).getD (q * L + rr) 0 = (f q).getD rr 0 := by
  have hq2 : q < (List.range n).length := by simpa using hq
  rw [flatMap_getD_const f L (List.range n) q rr
    (fun x hx => hlen x (List.mem_range.mp hx)) hrr hq2]
  congr 1
  simp [List.get_eq_getElem]

theorem flattenTensor_length (s : Shape) (t : Nat → Nat → Nat → ℚ) :
    (flattenTensor s t).length = s.size := by
  unfold flattenTensor Shape.size
  rw [flatMap_length_const _ (s.cols * s.channels)]
  · simp [Nat.mul_assoc]
  · intro x _
    rw [flatMap_length_const _ s.channels]
    · simp
    · intro y _
      simp

theorem rowMajorIndex_lt (s : Shape) (i j k : Nat) (hi : i < s.rows)
    (hj : j < s.cols) (hk : k < s.channels) : rowMajorIndex s i j k < s.size := by
  unfold rowMajorIndex Shape.size
  calc (i * s.cols + j) * s.channels + k
      < (i * s.cols + j) * s.channels + s.channels := by omega
    _ = (i * s.cols + j + 1) * s.channels := (Nat.succ_mul _ _).symm
    _ ≤ s.rows * s.cols * s.channels := by
        refine Nat.mul_le_mul_right _ ?_
        calc i * s.cols + j + 1 ≤ i * s.cols + s.cols := by omega
          _ = (i + 1) * s.cols := (Nat.succ_mul _ _).symm
          _ ≤ s.rows * s.cols := Nat.mul_le_mul_right _ hi

theorem flattenTensor_getD (s : Shape) (t : Nat → Nat → Nat → ℚ) (i j k : Nat)
    (hi : i < s.rows) (hj : j < s.cols) (hk : k < s.channels) :
    (flattenTensor s t).getD (rowMajorIndex s i j k) 0 = t i j k := by
  unfold flattenTensor rowMajorIndex
  have hidx : (i * s.cols + j) * s.channels + k =
      i * (s.cols * s.channels) + (j * s.channels + k) := by ring
  rw [hidx]
  have hrr : j * s.channels + k < s.cols * s.channels := by
    calc j * s.channels + k < j * s.channels + s.channels := by omega
      _ = (j + 1) * s.channels := (Nat.succ_mul _ _).symm
      _ ≤ s.cols * s.channels := Nat.mul_le_mul_right _ hj
  rw [flatMap_range_getD s.rows _ (s.cols * s.channels) ?_ i _ hi hrr]
  · rw [flatMap_range_getD s.cols _ s.channels ?_ j k hj hk]
    · exact getD_range_map s.channels k _ hk
    · intro y _
      simp
  · intro x _
    rw [flatMap_length_const _ s.channels]
    · simp
    · intro y _
      simp

theorem dotQ_cons (x y : ℚ) (xs ys : List ℚ) :
    dotQ (x :: xs) (y :: ys) = x * y + dotQ xs ys := by
  unfold dotQ
  rw [List.zip_cons_cons, List.map_cons, List.sum_cons]

theorem dotQ_eq_sum (xs ys : List ℚ) (h : xs.length = ys.length) :
    dotQ xs ys = ∑ c ∈ Finset.range ys.length, xs.getD c 0 * ys.getD c 0 := by
  induction xs generalizing ys with
  | nil =>
    cases ys with
    | nil => simp [dotQ]
    | cons y ys => cases h
  | cons x xs ih =>
    cases ys with
    | nil => cases h
    | cons y ys =>
      have h2 : xs.length = ys.length := Nat.succ.inj h
      rw [dotQ_cons, ih ys h2, List.length_cons, Finset.sum_range_succ']
      simp only [List.getD_cons_succ, List.getD_cons_zero]
      exact add_comm _ _

theorem msau_getD (s : ℚ) (w : MatrixQ) (x : List ℚ) (b : ℚ) (y : List ℚ)
    (r : Nat) (hr : r < w.numRows) :
    (MultiplyScaleAddUpdate s w x b y).getD r 0 =
      s * dotQ (w.rows.getD r []) x + b * y.getD r 0 := by
  unfold MultiplyScaleAddUpdate
  exact getD_range_map w.numRows r _ hr

/-- C10: for a fully connected layer whose buffers match its shapes,
`Compute` writes into the output region (excluding padding) exactly the
matrix-vector product of the stored weights with the input tensor flattened
in row, column, channel order, written back in the same order, while the
weights, the input tensor and the layer parameters are unchanged and
positions outside the output region are untouched. -/
theorem fullyConnectedLayer_compute_gemv (layer : FullyConnectedLayer)
    (hrows : layer.weights.numRows =
      layer.layerParameters.outputMinusPaddingShape.size)
    (hcols : ∀ row ∈ layer.weights.rows,
      row.length = layer.layerParameters.inputShape.size) :
    (layer.Compute.weights = layer.weights ∧
     layer.Compute.inputTensor = layer.inputTensor ∧
     layer.Compute.layerParameters = layer.layerParameters) ∧
    (∀ a b c, a < layer.layerParameters.inputShape.rows →
      b < layer.layerParameters.inputShape.cols →
      c < layer.layerParameters.inputShape.channels →
      (flattenTensor layer.layerParameters.inputShape layer.inputTensor).getD
        (rowMajorIndex layer.layerParameters.inputShape a b c) 0 =
        layer.inputTensor a b c) ∧
    (∀ i j k, i < layer.layerParameters.outputMinusPaddingShape.rows →
      j < layer.layerParameters.outputMinusPaddingShape.cols →
      k < layer.layerParameters.outputMinusPaddingShape.channels →
      layer.Compute.outputTensor i j k =
        matVecEntry
          (fun r c => (layer.weights.rows.getD r []).getD c 0)
          (fun c => (flattenTensor layer.layerParameters.inputShape
            layer.inputTensor).getD c 0)
          layer.layerParameters.inputShape.size
          (rowMajorIndex layer.layerParameters.outputMinusPaddingShape i j k)) ∧
    (∀ i j k, ¬(i < layer.layerParameters.outputMinusPaddingShape.rows ∧
        j < layer.layerParameters.outputMinusPaddingShape.cols ∧
        k < layer.layerParameters.outputMinusPaddingShape.channels) →
      layer.Compute.outputTensor i j k = layer.outputTensor i j k) := by
  have houtput : layer.Compute.outputTensor = fun i j k =>
      if i < layer.layerParameters.outputMinusPaddingShape.rows ∧
         j < layer.layerParameters.outputMinusPaddingShape.cols ∧
         k < layer.layerParameters.outputMinusPaddingShape.channels then
        (MultiplyScaleAddUpdate 1 layer.weights
          (flattenTensor layer.layerParameters.inputShape layer.inputTensor) 0
          layer.outputVector).getD
          (rowMajorIndex layer.layerParameters.outputMinusPaddingShape i j k) 0
      else layer.outputTensor i j k := rfl
  refine ⟨⟨rfl, rfl, rfl⟩, ?_, ?_, ?_⟩
  · intro a b c ha hb hc
    exact flattenTensor_getD layer.layerParameters.inputShape layer.inputTensor
      a b c ha hb hc
  · intro i j k hi hj hk
    rw [houtput]
    dsimp only
    rw [if_pos ⟨hi, hj, hk⟩]
    have hr : rowMajorIndex layer.layerParameters.outputMinusPaddingShape i j k <
        layer.weights.numRows := by
      rw [hrows]
      exact rowMajorIndex_lt _ i j k hi hj hk
    rw [msau_getD _ _ _ _ _ _ hr, one_mul, zero_mul, add_zero]
    have hrlen : rowMajorIndex layer.layerParameters.outputMinusPaddingShape i j k <
        layer.weights.rows.length := hr
    have hrowmem : layer.weights.rows.getD
        (rowMajorIndex layer.layerParameters.outputMinusPaddingShape i j k) [] ∈
        layer.weights.rows := by
      rw [List.getD_eq_getElem?_getD, List.getElem?_eq_getElem hrlen]
      exact List.getElem_mem hrlen
    have hlenrow := hcols _ hrowmem
    have hlenflat := flattenTensor_length layer.layerParameters.inputShape
      layer.inputTensor
    rw [dotQ_eq_sum _ _ (by rw [hlenrow, hlenflat]), hlenflat]
    rfl
  · intro i j k hout
    rw [houtput]
    dsimp only
    rw [if_neg hout]

/-- Witness for C10: the concrete test layer satisfies the shape hypotheses
and its computation is the stated matrix-vector product. -/
theorem fullyConnectedLayer_compute_gemv_witness :
    testLayer.weights.numRows =
      testLayer.layerParameters.outputMinusPaddingShape.size ∧
    (∀ row ∈ testLayer.weights.rows,
      row.length = testLayer.layerParameters.inputShape.size) ∧
    ((testLayer.Compute.weights = testLayer.weights ∧
      testLayer.Compute.inputTensor = testLayer.inputTensor ∧
      testLayer.Compute.layerParameters = testLayer.layerParameters) ∧
    (∀ a b c, a < testLayer.layerParameters.inputShape.rows →
      b < testLayer.layerParameters.inputShape.cols →
      c < testLayer.layerParameters.inputShape.channels →
      (flattenTensor testLayer.layerParameters.inputShape
        testLayer.inputTensor).getD
        (rowMajorIndex testLayer.layerParameters.inputShape a b c) 0 =
        testLayer.inputTensor a b c) ∧
    (∀ i j k, i < testLayer.layerParameters.outputMinusPaddingShape.rows →
      j < testLayer.layerParameters.outputMinusPaddingShape.cols →
      k < testLayer.layerParameters.outputMinusPaddingShape.channels →
      testLayer.Compute.outputTensor i j k =
        matVecEntry
          (fun r c => (testLayer.weights.rows.getD r []).getD c 0)
          (fun c => (flattenTensor testLayer.layerParameters.inputShape
            testLayer.inputTensor).getD c 0)
          testLayer.layerParameters.inputShape.size
          (rowMajorIndex testLayer.layerParameters.outputMinusPaddingShape i j k)) ∧
    (∀ i j k, ¬(i < testLayer.layerParameters.outputMinusPaddingShape.rows ∧
        j < testLayer.layerParameters.outputMinusPaddingShape.cols ∧
        k < testLayer.layerParameters.outputMinusPaddingShape.channels) →
      testLayer.Compute.outputTensor i j k = testLayer.outputTensor i j k)) :=
  ⟨by decide, by decide,
   fullyConnectedLayer_compute_gemv testLayer (by decide) (by decide)⟩
